import Mathlib

/-!
Shallow embedding of the IR record/playback engine found in
`src/irrp_with_class.py` (class `IRRP`), together with theorems settling
the specification claims about it.

Durations and tolerance percentages are modelled as exact rationals (the
Python code computes with floats); machine rounding of `round(x)` and
`round(x, 2)` is modelled by exact round-half-to-even on rationals.
A Python exception on a code path is modelled by an `Option` returning
`none` on that path.
-/

namespace IRRP

/-- Python's `round` to the nearest integer, rounding halves to the even
neighbour (banker's rounding), on exact rationals. -/
def roundHalfEven (x : ℚ) : ℤ :=
  if 2 * x < 2 * (⌊x⌋ : ℚ) + 1 then ⌊x⌋
  else if 2 * (⌊x⌋ : ℚ) + 1 < 2 * x then ⌊x⌋ + 1
  else if ⌊x⌋ % 2 = 0 then ⌊x⌋ else ⌊x⌋ + 1

/-- Python's `round(x, 2)` - round to two decimal places. -/
def pyRound2 (x : ℚ) : ℚ := (roundHalfEven (x * 100) : ℚ) / 100

/-- Lower tolerance factor `(100 - self.TOLERANCE) / 100.0` (`self.TOLER_MIN`)
for a tolerance percentage `t`. -/
def tolerMin (t : ℚ) : ℚ := (100 - t) / 100

/-- Upper tolerance factor `(100 + self.TOLERANCE) / 100.0` (`self.TOLER_MAX`)
for a tolerance percentage `t`. -/
def tolerMax (t : ℚ) : ℚ := (100 + t) / 100

/-- The similarity test of `IRRP.normalise` (lines 248 and 260):
`(c[j]*self.TOLER_MIN) < v < (c[j]*self.TOLER_MAX)`, where `v` is the seed
value and `cj` the candidate value. -/
def simCond (t v cj : ℚ) : Bool :=
  decide (cj * tolerMin t < v) && decide (v < cj * tolerMax t)

/-- The index list `range(j, n, 2)` of Python: `j, j+2, j+4, ...` below `n`. -/
def idxFrom (j n : ℕ) : List ℕ :=
  if j < n then j :: idxFrom (j + 2) n else []
termination_by n - j
decreasing_by omega

/-- The indices collected by the forward scans of `IRRP.normalise` for the
seed at position `i` with value `v`: unprocessed same-parity positions
`j ≥ i+2` whose value passes the similarity test. Both scans of the source
select exactly this set, since the first scan mutates nothing. -/
def simIdx (t : ℚ) (c : List ℚ) (p : List Bool) (v : ℚ) (i : ℕ) : List ℕ :=
  (idxFrom (i + 2) c.length).filter
    (fun j => !(p.getD j false) && simCond t v (c.getD j 0))

/-- One iteration of the outer loop of `IRRP.normalise` at index `i`, acting
on the pair (pulse list, processed flags). -/
def procStep (t : ℚ) (st : List ℚ × List Bool) (i : ℕ) : List ℚ × List Bool :=
  if st.2.getD i false then st
  else
    let v := st.1.getD i 0
    let js := simIdx t st.1 st.2 v i
    let tot := v + (js.map (fun j => st.1.getD j 0)).sum
    let similar : ℚ := 1 + js.length
    let newv := pyRound2 (tot / similar)
    (js.foldl (fun cc j => cc.set j newv) (st.1.set i newv),
     js.foldl (fun pp j => pp.set j true) st.2)

/-- The method `IRRP.normalise` (lines 200-266), as a function from the raw pulse list
to the normalised pulse list, for tolerance percentage `t`. -/
def normalise (t : ℚ) (c : List ℚ) : List ℚ :=
  ((List.range c.length).foldl (procStep t)
    (c, List.replicate c.length false)).1

/-- The ratio-checking loop of `IRRP.compare` (lines 286-289).
`none` models the `ZeroDivisionError` raised when an element of the second
list is zero; `some false` models `return False`; `some true` means the loop
ran to completion. -/
def compareChk (t : ℚ) : List ℚ → List ℚ → Option Bool
  | a :: as, b :: bs =>
      if b = 0 then none
      else if a / b < tolerMin t ∨ tolerMax t < a / b then some false
      else compareChk t as bs
  | _, _ => some true

/-- The in-place averaging of `IRRP.compare` (line 292):
`p1[i] = int(round((p1[i]+p2[i])/2.0))`. -/
def avgRound (a b : ℚ) : ℚ := (roundHalfEven ((a + b) / 2) : ℤ)

/-- The method `IRRP.compare` (lines 268-297). The result is `none` on the
`ZeroDivisionError` path, and otherwise `some (flag, p1')` where `flag` is
the returned boolean and `p1'` the state of the first list on return. -/
def compare (t : ℚ) (p1 p2 : List ℚ) : Option (Bool × List ℚ) :=
  if p1.length ≠ p2.length then some (false, p1)
  else
    match compareChk t p1 p2 with
    | none => none
    | some false => some (false, p1)
    | some true => some (true, p1.zipWith avgRound p2)

/-- The method `IRRP.carrier` (lines 182-198): the square-wave segments for a mark of
`micros` microseconds at carrier frequency `freq` kHz, as a list of
(on-duration, off-duration) pairs. -/
def carrier (freq micros : ℚ) : List (ℤ × ℤ) :=
  let cycle := 1000 / freq
  let cycles := roundHalfEven (micros / cycle)
  let onDur := roundHalfEven (cycle / 2)
  ((List.range cycles.toNat).foldl
    (fun (acc : List (ℤ × ℤ) × ℤ) (c : ℕ) =>
      let target := roundHalfEven (((c : ℚ) + 1) * cycle)
      (acc.1 ++ [(onDur, target - acc.2 - onDur)], target))
    ([], 0)).1

/-- The total duration of a waveform: the sum of all on and off segments. -/
def wfTotal (wf : List (ℤ × ℤ)) : ℤ := (wf.map (fun q => q.1 + q.2)).sum

/-- The method `IRRP.end_of_code` (lines 370-377): on a raw buffer `code` with fetching
flag `fetching`, either normalise and stop fetching, or discard the short
buffer and keep the fetching flag as it was. -/
def endOfCode (short : ℕ) (t : ℚ) (code : List ℚ) (fetching : Bool) :
    List ℚ × Bool :=
  if short < code.length then (normalise t code, false) else ([], fetching)

/-- The values of `seq` at positions `base, base+2, ...`
(`range(base, len(seq), 2)` in `IRRP.tidy_mark_space`). -/
def parityVals (base : ℕ) (seq : List ℚ) : List ℚ :=
  (idxFrom base seq.length).map (fun i => seq.getD i 0)

/-- All pulse values of the given parity across the whole store, in store
order, as collected by the counting loop of `IRRP.tidy_mark_space`. -/
def collectParity (records : List (String × List ℚ)) (base : ℕ) : List ℚ :=
  (records.map (fun r => parityVals base r.2)).flatten

/-- The frequency map `ms` of `IRRP.tidy_mark_space`, already arranged in
the ascending key order in which `sorted(ms)` iterates it: each distinct
observed value paired with its occurrence count. -/
def freqMap (vals : List ℚ) : List (ℚ × ℕ) :=
  (List.insertionSort (· ≤ ·) vals.dedup).map (fun k => (k, vals.count k))

/-- The bucket loop of `IRRP.tidy_mark_space` (lines 319-354) after its
first iteration: `e` is the list of values in the open bucket, `v` the
bucket's seed, `tot` / `sim` the running weighted total and count. Returns
the assignments `value -> canonical` made at bucket closings. -/
def tmsGo (t : ℚ) : List (ℚ × ℕ) → List ℚ → ℚ → ℚ → ℚ → List (ℚ × ℤ)
  | [], e, _v, tot, sim => e.map (fun x => (x, roundHalfEven (tot / sim)))
  | (plen, n) :: rest, e, v, tot, sim =>
      if plen < v * tolerMax t then
        tmsGo t rest (e ++ [plen]) v (tot + plen * n) (sim + n)
      else
        e.map (fun x => (x, roundHalfEven (tot / sim)))
          ++ tmsGo t rest [plen] plen (plen * n) (n : ℚ)

/-- The canonical-value assignment computed by `IRRP.tidy_mark_space` from
the frequency map. `none` models the `NameError` raised at line 351
(`tot` and `similar` are unbound) when the frequency map is empty. -/
def tidyCanonMap (t : ℚ) : List (ℚ × ℕ) → Option (List (ℚ × ℤ))
  | [] => none
  | (plen, n) :: rest => some (tmsGo t rest [plen] plen (plen * n) (n : ℚ))

/-- Looking a value up in the canonical assignment (`ms[records[rec][i]]`).
The fallback branch is unreachable for values of the tidied parity. -/
def lookupCanon (m : List (ℚ × ℤ)) (x : ℚ) : ℚ :=
  match m.find? (fun q => decide (q.1 = x)) with
  | some q => (q.2 : ℚ)
  | none => x

/-- The rewriting loop of `IRRP.tidy_mark_space` (lines 359-362): every
value at a position of parity `base` is replaced by its canonical value. -/
def rewriteParity (m : List (ℚ × ℤ)) (base : ℕ) (seq : List ℚ) : List ℚ :=
  (List.range seq.length).map
    (fun i => if i % 2 = base % 2 then lookupCanon m (seq.getD i 0)
              else seq.getD i 0)

/-- The method `IRRP.tidy_mark_space` (lines 299-362) over a store given as an
association list, for the parity `base` (0 = marks, 1 = spaces). -/
def tidyMarkSpace (t : ℚ) (records : List (String × List ℚ)) (base : ℕ) :
    Option (List (String × List ℚ)) :=
  match tidyCanonMap t (freqMap (collectParity records base)) with
  | none => none
  | some m => some (records.map (fun r => (r.1, rewriteParity m base r.2)))

/-- The method `IRRP.tidy` (lines 364-368): tidy the marks, then the spaces. -/
def tidy (t : ℚ) (records : List (String × List ℚ)) :
    Option (List (String × List ℚ)) :=
  match tidyMarkSpace t records 0 with
  | none => none
  | some r1 => tidyMarkSpace t r1 1

/-- Looking an identifier up in the store (`arg in records` / `records[arg]`
in `IRRP.playback`). -/
def storeLookup (records : List (String × List ℚ)) (id : String) :
    Option (List ℚ) :=
  (records.find? (fun r => decide (r.1 = id))).map (fun r => r.2)

/-- The observable outcome of one iteration of the playback loop: either the
code for the identifier is transmitted, or the identifier is reported as
not found. -/
inductive PlayEvent : Type
  | transmitted (id : String) (code : List ℚ) : PlayEvent
  | notFound (id : String) : PlayEvent
deriving DecidableEq

/-- The playback loop of `IRRP.playback` (lines 525-576): one event per
requested identifier, in request order. -/
def playbackEvents (records : List (String × List ℚ)) (ids : List String) :
    List PlayEvent :=
  ids.map (fun a =>
    match storeLookup records a with
    | some c => PlayEvent.transmitted a c
    | none => PlayEvent.notFound a)

/-- Modelled from the spec (claim C1's wording, for the counterexample and
amendment): the similarity band centred on the seed value `v`,
`v*(1 - tol) < c[j] < v*(1 + tol)`. -/
def specSimCond (t v cj : ℚ) : Bool :=
  decide (v * tolerMin t < cj) && decide (cj < v * tolerMax t)

/-- Modelled from the spec (claim C4's wording): split the ascending
frequency list into buckets, each seeded by its first element; a length
`plen` joins the open bucket exactly while `plen < seed * (1 + tol)`. -/
def bucketsOf (t : ℚ) : List (ℚ × ℕ) → List (List (ℚ × ℕ))
  | [] => []
  | q :: rest =>
      (q :: (rest.takeWhile (fun r => decide (r.1 < q.1 * tolerMax t))))
        :: bucketsOf t (rest.dropWhile (fun r => decide (r.1 < q.1 * tolerMax t)))
termination_by l => l.length
decreasing_by
  simp only [List.length_cons]
  exact Nat.lt_succ_of_le (List.Sublist.length_le (List.dropWhile_sublist _))

/-- Modelled from the spec (claim C4's wording): the weighted total of a
bucket. -/
def wSum (b : List (ℚ × ℕ)) : ℚ := (b.map (fun q => q.1 * (q.2 : ℚ))).sum

/-- Modelled from the spec (claim C4's wording): the weighted count of a
bucket. -/
def wCount (b : List (ℚ × ℕ)) : ℚ := (b.map (fun q => (q.2 : ℚ))).sum

/-- Modelled from the spec (claim C4's wording): the canonical value of a
bucket, `round(weighted_total / weighted_count)`. -/
def bucketCanon (b : List (ℚ × ℕ)) : ℤ := roundHalfEven (wSum b / wCount b)

/-- Modelled from the spec (claim C4's wording): every member of every
bucket is assigned its bucket's canonical value. -/
def specCanonMap (t : ℚ) (ms : List (ℚ × ℕ)) : List (ℚ × ℤ) :=
  ((bucketsOf t ms).map (fun b => b.map (fun q => (q.1, bucketCanon b)))).flatten

/-- The out-of-band condition of the ratio loop: `v < TOLER_MIN or v > TOLER_MAX`. -/
def outBand (t x y : ℚ) : Prop := x / y < tolerMin t ∨ tolerMax t < x / y

/-- The loop of `IRRP.carrier`, parametrised by the cycle length, the
constant on-duration, and the number of cycles. -/
def carrierLoop (cycle : ℚ) (onDur : ℤ) (k : ℕ) : List (ℤ × ℤ) × ℤ :=
  (List.range k).foldl
    (fun (acc : List (ℤ × ℤ) × ℤ) (c : ℕ) =>
      let target := roundHalfEven (((c : ℚ) + 1) * cycle)
      (acc.1 ++ [(onDur, target - acc.2 - onDur)], target))
    ([], 0)

/-! ### General lemmas about the embedded operations -/

theorem idxFrom_pos {j n : ℕ} (h : j < n) :
    idxFrom j n = j :: idxFrom (j + 2) n := by
  rw [idxFrom, if_pos h]

theorem idxFrom_neg {j n : ℕ} (h : ¬ j < n) : idxFrom j n = [] := by
  rw [idxFrom, if_neg h]

theorem mem_idxFrom (s n j : ℕ) :
    j ∈ idxFrom s n ↔ (s ≤ j ∧ j < n ∧ (j - s) % 2 = 0) := by
  by_cases h : s < n
  · rw [idxFrom_pos h, List.mem_cons, mem_idxFrom (s + 2) n j]
    omega
  · rw [idxFrom_neg h]
    simp only [List.not_mem_nil, false_iff]
    omega
termination_by n - s
decreasing_by omega

theorem roundHalfEven_intCast (n : ℤ) : roundHalfEven (n : ℚ) = n := by
  have h : ⌊(n : ℚ)⌋ = n := Int.floor_intCast n
  rw [roundHalfEven, h, if_pos (by linarith)]

theorem roundHalfEven_nonneg {x : ℚ} (h : 0 ≤ x) : 0 ≤ roundHalfEven x := by
  have hf : (0 : ℤ) ≤ ⌊x⌋ := Int.floor_nonneg.2 h
  rw [roundHalfEven]
  split
  · exact hf
  · split
    · omega
    · split <;> omega

theorem pyRound2_idem (x : ℚ) : pyRound2 (pyRound2 x) = pyRound2 x := by
  simp only [pyRound2]
  rw [div_mul_cancel₀ _ (by norm_num : (100 : ℚ) ≠ 0), roundHalfEven_intCast]

theorem getD_replicate_false (n i : ℕ) :
    (List.replicate n false).getD i false = false := by
  rcases Nat.lt_or_ge i n with h | h
  · simp [List.getD_eq_getElem?_getD, List.getElem?_replicate, h]
  · simp [List.getD_eq_getElem?_getD, List.getElem?_replicate, Nat.not_lt.2 h]

end IRRP

namespace IRRP

/-! ### Claim C1: the similarity band of the Pulse Normalizer -/

/-- Claim C1 counterexample: with tolerance 15, seed value `v = 100` and
candidate `c[j] = 86`, the claimed band centred on the seed
(`v*(1-tol) < c[j] < v*(1+tol)`) accepts the candidate, but the code's test
(`c[j]*TOLER_MIN < v < c[j]*TOLER_MAX`) rejects it: the scan for seed
position 0 of `[100, 500, 86]` collects nothing and `normalise` leaves the
sequence unchanged instead of averaging 100 and 86. -/
theorem c1_counterexample :
    (100 * tolerMin 15 < (86 : ℚ) ∧ (86 : ℚ) < 100 * tolerMax 15) ∧
    specSimCond 15 100 86 = true ∧
    simIdx 15 [100, 500, 86] (List.replicate 3 false) 100 0 = [] ∧
    normalise 15 [100, 500, 86] = [100, 500, 86] := by
  have h3 : List.range 3 = [0, 1, 2] := rfl
  have hr : List.replicate 3 false = [false, false, false] := rfl
  refine ⟨by norm_num [tolerMin, tolerMax], by norm_num [specSimCond, tolerMin, tolerMax], ?_, ?_⟩
  · rw [hr]
    norm_num [simIdx, idxFrom_pos, idxFrom_neg, simCond, tolerMin, tolerMax]
  · norm_num [normalise, h3, hr, procStep, simIdx, idxFrom_pos, idxFrom_neg,
      simCond, tolerMin, tolerMax, pyRound2, roundHalfEven]

/-- Claim C1 amended: in the Pulse Normalizer's scan for the seed at
position `i` with value `v`, a position `j` is collected as similar exactly
when it is a same-parity position at least two past `i`, below the end of
the sequence, still unprocessed, and its value `c[j]` satisfies the band
centred on the *candidate*: `c[j]*(1 - tol) < v < c[j]*(1 + tol)`. -/
theorem c1_amended (t v : ℚ) (c : List ℚ) (p : List Bool) (i j : ℕ) :
    j ∈ simIdx t c p v i ↔
      (i + 2 ≤ j ∧ j < c.length ∧ (j - i) % 2 = 0 ∧
       p.getD j false = false ∧
       c.getD j 0 * ((100 - t) / 100) < v ∧ v < c.getD j 0 * ((100 + t) / 100)) := by
  rw [simIdx, List.mem_filter, mem_idxFrom]
  simp only [Bool.and_eq_true, Bool.not_eq_true', decide_eq_true_eq, simCond,
    tolerMin, tolerMax]
  constructor
  · rintro ⟨⟨h1, h2, h3⟩, h4, h5, h6⟩
    exact ⟨h1, h2, by omega, h4, h5, h6⟩
  · rintro ⟨h1, h2, h3, h4, h5, h6⟩
    exact ⟨⟨h1, h2, by omega⟩, h4, h5, h6⟩

/-! ### Claim C2: idempotence of the Pulse Normalizer -/

/-- Claim C2 counterexample: with tolerance 15 the Pulse Normalizer is not
idempotent. On `[100, 500, 112, 500, 124]` the first pass yields
`[106, 500, 106, 500, 124]` (124 is not similar to the seed 100), but the
second pass finds 124 similar to the new seed 106 and merges everything to
`[112, 500, 112, 500, 112]`. -/
theorem c2_counterexample :
    normalise 15 (normalise 15 [100, 500, 112, 500, 124]) ≠
      normalise 15 [100, 500, 112, 500, 124] := by
  have h5 : List.range 5 = [0, 1, 2, 3, 4] := rfl
  have hr : List.replicate 5 false = [false, false, false, false, false] := rfl
  have h1 : normalise 15 [100, 500, 112, 500, 124] = [106, 500, 106, 500, 124] := by
    norm_num [normalise, h5, hr, procStep, simIdx, idxFrom_pos, idxFrom_neg,
      simCond, tolerMin, tolerMax, pyRound2, roundHalfEven]
  have h2 : normalise 15 [106, 500, 106, 500, 124] = [112, 500, 112, 500, 112] := by
    norm_num [normalise, h5, hr, procStep, simIdx, idxFrom_pos, idxFrom_neg,
      simCond, tolerMin, tolerMax, pyRound2, roundHalfEven]
  rw [h1, h2]
  norm_num

end IRRP

namespace IRRP

/-! ### Tolerance zero: each pass of the Normalizer just rounds in place -/

theorem simCond_zero (v cj : ℚ) : simCond 0 v cj = false := by
  simp only [simCond, tolerMin, tolerMax]
  norm_num
  intro h
  linarith

theorem simIdx_zero (c : List ℚ) (p : List Bool) (v : ℚ) (i : ℕ) :
    simIdx 0 c p v i = [] := by
  simp [simIdx, simCond_zero]

theorem procStep_zero (c : List ℚ) (p : List Bool) (i : ℕ)
    (hp : p.getD i false = false) :
    procStep 0 (c, p) i = (c.set i (pyRound2 (c.getD i 0)), p) := by
  simp only [procStep, hp, Bool.false_eq_true, if_false, simIdx_zero]
  simp

theorem foldl_range_set (f : ℚ → ℚ) (c : List ℚ) (k : ℕ) :
    (List.range k).foldl (fun cc i => cc.set i (f (cc.getD i 0))) c
      = (c.take k).map f ++ c.drop k := by
  induction k with
  | zero => simp
  | succ k ih =>
    rw [List.range_succ, List.foldl_append, ih]
    simp only [List.foldl_cons, List.foldl_nil]
    rcases Nat.lt_or_ge k c.length with h | h
    · have hA : ((c.take k).map f).length = k := by
        simp [Nat.min_eq_left (Nat.le_of_lt h)]
      have hd : c.drop k = c.getD k 0 :: c.drop (k + 1) := by
        rw [List.drop_eq_getElem_cons h]
        simp [List.getD_eq_getElem?_getD, List.getElem?_eq_getElem h]
      have hgd : ((c.take k).map f ++ c.drop k).getD k 0 = c.getD k 0 := by
        rw [List.getD_append_right _ _ _ _ (le_of_eq hA), hA, Nat.sub_self, hd]
        rfl
      have hlen : k < ((c.take k).map f ++ c.drop k).length := by
        simp only [List.length_append, hA, List.length_drop]
        omega
      rw [hgd, List.set_eq_take_cons_drop _ hlen]
      have ht : ((c.take k).map f ++ c.drop k).take k = (c.take k).map f :=
        List.take_left' hA
      have hdr : ((c.take k).map f ++ c.drop k).drop (k + 1) = c.drop (k + 1) := by
        rw [List.drop_append_eq_append_drop,
          List.drop_of_length_le (by rw [hA]; omega), hA, List.nil_append,
          List.drop_drop]
        congr 1
        omega
      rw [ht, hdr]
      have htk : c.take (k + 1) = c.take k ++ [c.getD k 0] := by
        rw [List.take_succ, List.getElem?_eq_getElem h]
        simp [List.getD_eq_getElem?_getD, List.getElem?_eq_getElem h]
      rw [htk]
      simp
    · rw [List.take_of_length_le h, List.drop_of_length_le h, List.append_nil,
        List.set_eq_of_length_le (by simp; omega),
        List.take_of_length_le (by omega), List.drop_of_length_le (by omega),
        List.append_nil]

theorem foldl_procStep_zero (c : List ℚ) (n k : ℕ) :
    (List.range k).foldl (procStep 0) (c, List.replicate n false)
      = ((List.range k).foldl (fun cc i => cc.set i (pyRound2 (cc.getD i 0))) c,
         List.replicate n false) := by
  induction k with
  | zero => simp
  | succ k ih =>
    rw [List.range_succ, List.foldl_append, List.foldl_append, ih]
    simp only [List.foldl_cons, List.foldl_nil]
    exact procStep_zero _ _ _ (getD_replicate_false n k)

theorem normalise_zero (c : List ℚ) : normalise 0 c = c.map pyRound2 := by
  rw [normalise, foldl_procStep_zero, foldl_range_set]
  simp

/-- Claim C2 amended: the Pulse Normalizer is idempotent at tolerance 0
(each pass only rounds every value to two decimal places, and that rounding
is idempotent); for positive tolerances idempotence can fail, since a second
pass may merge averaged clusters further. -/
theorem c2_amended (c : List ℚ) :
    normalise 0 (normalise 0 c) = normalise 0 c := by
  rw [normalise_zero, normalise_zero, List.map_map]
  exact List.map_congr_left (fun a _ => pyRound2_idem a)

end IRRP

namespace IRRP

/-! ### Claims C5, C6, C8, C10 -/

/-- Claim C5 (code bug): running the Code Set Tidier on a store containing
zero codes does error. The counting loop leaves the frequency map empty, the
bucket loop never runs, and the final close at line 351 reads the unbound
locals `tot` and `similar` (a `NameError`, modelled by `none`) - contrary to
the claim that a store with zero codes must not error. -/
theorem c5_empty_store_errors (t : ℚ) (base : ℕ) :
    tidyMarkSpace t [] base = none := rfl

/-- Claim C6: at end-of-code, a raw buffer of length at most `SHORT` is
rejected: it is discarded (reset to empty) and the fetching flag is left as
it was, so the machine keeps listening; a longer buffer is normalised and
the fetching flag is cleared, completing the capture. -/
theorem c6_end_of_code (short : ℕ) (t : ℚ) (code : List ℚ) (fetching : Bool) :
    (code.length ≤ short → endOfCode short t code fetching = ([], fetching)) ∧
    (short < code.length →
      endOfCode short t code fetching = (normalise t code, false)) := by
  constructor
  · intro h
    rw [endOfCode, if_neg (by omega)]
  · intro h
    rw [endOfCode, if_pos h]

/-- Witness for C6 at concrete inputs: a 3-pulse buffer with `SHORT = 10` is
rejected with the buffer emptied and fetching still on; with `SHORT = 2` the
same buffer is normalised and fetching stops. -/
theorem c6_witness :
    endOfCode 10 15 [9000, 4500, 600] true = ([], true) ∧
    endOfCode 2 15 [9000, 4500, 600] true = (normalise 15 [9000, 4500, 600], false) :=
  ⟨(c6_end_of_code 10 15 [9000, 4500, 600] true).1 (by norm_num),
   (c6_end_of_code 2 15 [9000, 4500, 600] true).2 (by norm_num)⟩

/-- Claim C8: playback emits exactly one event per requested identifier, in
request order; an identifier absent from the store yields a not-found report
at its position (never a silent skip), and a present identifier yields a
transmission at its position - so identifiers after a failed one are still
transmitted. -/
theorem c8_playback (records : List (String × List ℚ)) (ids : List String) :
    (playbackEvents records ids).length = ids.length ∧
    ∀ i, i < ids.length →
      (storeLookup records (ids.getD i "") = none →
        (playbackEvents records ids).getD i (PlayEvent.notFound "") =
          PlayEvent.notFound (ids.getD i "")) ∧
      (∀ cd, storeLookup records (ids.getD i "") = some cd →
        (playbackEvents records ids).getD i (PlayEvent.notFound "") =
          PlayEvent.transmitted (ids.getD i "") cd) := by
  refine ⟨by simp [playbackEvents], ?_⟩
  intro i hi
  have hid : ids.getD i "" = ids[i] := by
    simp [List.getD_eq_getElem?_getD, List.getElem?_eq_getElem hi]
  have hev : (playbackEvents records ids).getD i (PlayEvent.notFound "") =
      (match storeLookup records ids[i] with
       | some cd => PlayEvent.transmitted ids[i] cd
       | none => PlayEvent.notFound ids[i]) := by
    simp [playbackEvents, List.getD_eq_getElem?_getD, List.getElem?_map,
      List.getElem?_eq_getElem hi]
  constructor
  · intro hnone
    rw [hid] at hnone ⊢
    rw [hev, hnone]
  · intro cd hsome
    rw [hid] at hsome ⊢
    rw [hev, hsome]

/-- Witness for C8 on the spec's scenario: playing back `["1", "9"]` against
a store holding only `"1"` reports `"9"` as not found at position 1 and
still transmits `"1"` at position 0. -/
theorem c8_witness :
    (playbackEvents [("1", [100])] ["1", "9"]).getD 1 (PlayEvent.notFound "") =
      PlayEvent.notFound "9" ∧
    (playbackEvents [("1", [100])] ["1", "9"]).getD 0 (PlayEvent.notFound "") =
      PlayEvent.transmitted "1" [100] :=
  ⟨((c8_playback [("1", [100])] ["1", "9"]).2 1 (by norm_num)).1 rfl,
   ((c8_playback [("1", [100])] ["1", "9"]).2 0 (by norm_num)).2 [100] rfl⟩

/-- Claim C10: the Confirmation Comparator divides without a zero guard: on
the equal-length inputs `[100]` and `[0]` it raises a division-by-zero error
(modelled by `none`) instead of returning a no-match result. -/
theorem c10_compare_zero_division : IRRP.compare 15 [100] [0] = none := by
  norm_num [IRRP.compare, compareChk]

end IRRP

namespace IRRP

/-! ### Claim C3: the Confirmation Comparator -/

theorem compareChk_spec (t : ℚ) :
    ∀ (a b : List ℚ), a.length = b.length →
      (∀ i, i < b.length → b.getD i 0 ≠ 0) →
      ((compareChk t a b = some false ↔
          ∃ i, i < a.length ∧ outBand t (a.getD i 0) (b.getD i 0)) ∧
       (compareChk t a b = some true ↔
          ∀ i, i < a.length → ¬ outBand t (a.getD i 0) (b.getD i 0)))
  | [], b, hlen, _hb => by
      have hb0 : b = [] := List.eq_nil_of_length_eq_zero hlen.symm
      subst hb0
      constructor
      · simp [compareChk]
      · simp [compareChk]
  | x :: as, [], hlen, _hb => by simp at hlen
  | x :: as, y :: bs, hlen, hb => by
      have hy : y ≠ 0 := by
        have := hb 0 (by simp)
        simpa using this
      have hlen' : as.length = bs.length := by simpa using hlen
      have hb' : ∀ i, i < bs.length → bs.getD i 0 ≠ 0 := by
        intro i hi
        have := hb (i + 1) (by simp; omega)
        simpa using this
      have ih := compareChk_spec t as bs hlen' hb'
      by_cases hob : outBand t x y
      · have hres : compareChk t (x :: as) (y :: bs) = some false := by
          rw [compareChk, if_neg hy,
            if_pos (show x / y < tolerMin t ∨ tolerMax t < x / y from hob)]
        constructor
        · rw [hres]
          simp only [true_iff]
          exact ⟨0, by simp, by simpa using hob⟩
        · rw [hres]
          constructor
          · intro h
            exact absurd h (by simp)
          · intro h
            exact absurd (by simpa using hob) (h 0 (by simp))
      · have hres : compareChk t (x :: as) (y :: bs) = compareChk t as bs := by
          rw [compareChk, if_neg hy,
            if_neg (show ¬ (x / y < tolerMin t ∨ tolerMax t < x / y) from hob)]
        constructor
        · rw [hres, ih.1]
          constructor
          · rintro ⟨i, hi, hband⟩
            exact ⟨i + 1, by simp; omega, by simpa using hband⟩
          · rintro ⟨i, hi, hband⟩
            match i with
            | 0 => exact absurd (by simpa using hband) hob
            | j + 1 =>
              refine ⟨j, by simp at hi; omega, ?_⟩
              simpa using hband
        · rw [hres, ih.2]
          constructor
          · intro h i hi
            match i with
            | 0 => simpa using hob
            | j + 1 =>
              have := h j (by simp at hi; omega)
              simpa using this
          · intro h i hi
            have := h (i + 1) (by simp; omega)
            simpa using this

/-- Claim C3: the Confirmation Comparator returns `(False, a unchanged)` when
the lengths differ; with equal lengths and a zero-free second sequence it
fails (returning `a` unmutated) exactly when some position's ratio
`a[i]/b[i]` lies outside `[TOLER_MIN, TOLER_MAX]`, and when every ratio is
inside the band it succeeds with every `a[i]` replaced by
`round((a[i]+b[i])/2)`. -/
theorem c3_compare (t : ℚ) (a b : List ℚ) :
    (a.length ≠ b.length → IRRP.compare t a b = some (false, a)) ∧
    (a.length = b.length → (∀ i, i < b.length → b.getD i 0 ≠ 0) →
      ((IRRP.compare t a b = some (false, a) ↔
         ∃ i, i < a.length ∧
           (a.getD i 0 / b.getD i 0 < tolerMin t ∨
            tolerMax t < a.getD i 0 / b.getD i 0)) ∧
       ((∀ i, i < a.length →
           tolerMin t ≤ a.getD i 0 / b.getD i 0 ∧
           a.getD i 0 / b.getD i 0 ≤ tolerMax t) →
         IRRP.compare t a b = some (true, a.zipWith avgRound b)))) := by
  constructor
  · intro hne
    rw [IRRP.compare, if_pos hne]
  · intro hlen hb
    have hspec := compareChk_spec t a b hlen hb
    have hcmp : IRRP.compare t a b =
        (match compareChk t a b with
         | none => none
         | some false => some (false, a)
         | some true => some (true, a.zipWith avgRound b)) := by
      rw [IRRP.compare, if_neg (by omega)]
    constructor
    · constructor
      · intro h
        rcases hchk : compareChk t a b with _ | fl
        · rw [hcmp, hchk] at h
          exact absurd h (by simp)
        · cases fl
          · exact (hspec.1.mp hchk)
          · rw [hcmp, hchk] at h
            simp at h
      · intro hex
        rw [hcmp, hspec.1.mpr hex]
    · intro hin
      have hall : ∀ i, i < a.length → ¬ outBand t (a.getD i 0) (b.getD i 0) := by
        intro i hi
        have := hin i hi
        rw [outBand]
        push_neg
        exact ⟨this.1, this.2⟩
      rw [hcmp, hspec.2.mpr hall]

/-- Witness for C3 at concrete inputs with tolerance 15: `[100]` against
`[200]` has ratio 1/2 outside the band and fails with the first list
unchanged; `[100]` against `[100]` has ratio 1 inside the band and succeeds
with the averaged value 100. -/
theorem c3_witness :
    IRRP.compare 15 [100] [200] = some (false, [100]) ∧
    IRRP.compare 15 [100] [100] = some (true, [100]) := by
  constructor
  · exact ((c3_compare 15 [100] [200]).2 (by norm_num)
      (by intro i hi; simp at hi; subst hi; norm_num)).1.mpr
      ⟨0, by norm_num, by norm_num [tolerMin]⟩
  · have h := ((c3_compare 15 [100] [100]).2 (by norm_num)
      (by intro i hi; simp at hi; subst hi; norm_num)).2
      (by intro i hi; simp at hi; subst hi; norm_num [tolerMin, tolerMax])
    rw [h]
    norm_num [avgRound, roundHalfEven]

end IRRP

namespace IRRP

/-! ### Claim C7: the carrier generator of the Waveform Builder -/

theorem carrier_eq_loop (freq micros : ℚ) :
    carrier freq micros =
      (carrierLoop (1000 / freq) (roundHalfEven ((1000 / freq) / 2))
        (roundHalfEven (micros / (1000 / freq))).toNat).1 := rfl

theorem carrierLoop_spec (cycle : ℚ) (onDur : ℤ) (k : ℕ) :
    (carrierLoop cycle onDur k).2 = roundHalfEven ((k : ℚ) * cycle) ∧
    wfTotal (carrierLoop cycle onDur k).1 = (carrierLoop cycle onDur k).2 ∧
    (carrierLoop cycle onDur k).1.length = k ∧
    ∀ q ∈ (carrierLoop cycle onDur k).1, q.1 = onDur := by
  induction k with
  | zero =>
      refine ⟨?_, rfl, rfl, by simp [carrierLoop]⟩
      show (0 : ℤ) = roundHalfEven ((0 : ℚ) * cycle)
      norm_num [roundHalfEven]
  | succ k ih =>
      obtain ⟨ih2, ihtot, ihlen, ihmem⟩ := ih
      have hstep : carrierLoop cycle onDur (k + 1) =
          ((carrierLoop cycle onDur k).1 ++
            [(onDur, roundHalfEven (((k : ℚ) + 1) * cycle) -
              (carrierLoop cycle onDur k).2 - onDur)],
           roundHalfEven (((k : ℚ) + 1) * cycle)) := by
        rw [carrierLoop, List.range_succ, List.foldl_append]
        rfl
      refine ⟨?_, ?_, ?_, ?_⟩
      · rw [hstep]
        push_cast
        rfl
      · rw [hstep]
        simp only [wfTotal, List.map_append, List.sum_append, List.map_cons,
          List.map_nil, List.sum_cons, List.sum_nil]
        rw [← wfTotal, ihtot]
        omega
      · rw [hstep]
        simp [ihlen]
      · rw [hstep]
        intro q hq
        rcases List.mem_append.1 hq with h | h
        · exact ihmem q h
        · simp at h
          rw [h]

/-- Claim C7 counterexample: for a mark of 600 microseconds at 38 kHz the
carrier waveform's segments sum to 605 microseconds, not to the requested
600: the cycle count is itself rounded (`round(600/(1000/38)) = 23` cycles
of 1000/38 us round to 605 us). -/
theorem c7_counterexample :
    wfTotal (carrier 38 600) = 605 ∧ (605 : ℤ) ≠ 600 := by
  constructor
  · have hn : Int.toNat 23 = 23 := rfl
    have h : List.range 23 =
      [0, 1, 2, 3, 4, 5, 6, 7, 8, 9, 10, 11, 12, 13, 14, 15, 16, 17, 18, 19,
       20, 21, 22] := rfl
    norm_num [carrier, wfTotal, roundHalfEven, hn, h]
  · norm_num

/-- Claim C7 amended: the carrier generator emits
`round(micros / (1000/freq))` cycles, each on for the rounded half-cycle
`round((1000/freq)/2)`, with rounding error carried across cycles; the total
of all on and off durations equals `round(cycles * (1000/freq))` - the
requested duration rounded to a whole number of cycles - which need not
equal `micros` itself. -/
theorem c7_amended (freq micros : ℚ) (hf : 0 < freq) (hm : 0 ≤ micros) :
    (carrier freq micros).length =
      (roundHalfEven (micros / (1000 / freq))).toNat ∧
    (∀ q ∈ carrier freq micros, q.1 = roundHalfEven ((1000 / freq) / 2)) ∧
    wfTotal (carrier freq micros) =
      roundHalfEven ((roundHalfEven (micros / (1000 / freq)) : ℚ) *
        (1000 / freq)) := by
  rw [carrier_eq_loop]
  obtain ⟨h2, htot, hlen, hmem⟩ := carrierLoop_spec (1000 / freq)
    (roundHalfEven ((1000 / freq) / 2))
    (roundHalfEven (micros / (1000 / freq))).toNat
  refine ⟨hlen, hmem, ?_⟩
  rw [htot, h2]
  have hcyc : (0 : ℤ) ≤ roundHalfEven (micros / (1000 / freq)) :=
    roundHalfEven_nonneg (div_nonneg hm (by positivity))
  have hcast : (((roundHalfEven (micros / (1000 / freq))).toNat : ℕ) : ℚ) =
      ((roundHalfEven (micros / (1000 / freq)) : ℤ) : ℚ) := by
    exact_mod_cast congrArg (fun z : ℤ => (z : ℚ))
      (Int.toNat_of_nonneg hcyc)
  rw [hcast]

/-- Witness for C7 at concrete inputs: 38 kHz, 600 microseconds. -/
theorem c7_amended_witness :
    (carrier 38 600).length = (roundHalfEven ((600 : ℚ) / (1000 / 38))).toNat ∧
    wfTotal (carrier 38 600) =
      roundHalfEven ((roundHalfEven ((600 : ℚ) / (1000 / 38)) : ℚ) *
        (1000 / 38)) :=
  ⟨(c7_amended 38 600 (by norm_num) (by norm_num)).1,
   (c7_amended 38 600 (by norm_num) (by norm_num)).2.2⟩

end IRRP


namespace IRRP

/-! ### Claim C4: the bucket structure of the Code Set Tidier -/

theorem wSum_nil : wSum [] = 0 := rfl

theorem wCount_nil : wCount [] = 0 := rfl

theorem wSum_cons (q : ℚ × ℕ) (l : List (ℚ × ℕ)) :
    wSum (q :: l) = q.1 * (q.2 : ℚ) + wSum l := by
  simp [wSum]

theorem wCount_cons (q : ℚ × ℕ) (l : List (ℚ × ℕ)) :
    wCount (q :: l) = (q.2 : ℚ) + wCount l := by
  simp [wCount]

theorem bucketCanon_cons (q : ℚ × ℕ) (l : List (ℚ × ℕ)) :
    bucketCanon (q :: l) =
      roundHalfEven ((q.1 * (q.2 : ℚ) + wSum l) / ((q.2 : ℚ) + wCount l)) := by
  rw [bucketCanon, wSum_cons, wCount_cons]

theorem map_pair_fst (C : ℤ) (b : List (ℚ × ℕ)) :
    b.map (fun r => (r.1, C)) = (b.map Prod.fst).map (fun x => (x, C)) := by
  rw [List.map_map]
  rfl

theorem specCanonMap_nil (t : ℚ) : specCanonMap t [] = [] := by
  rw [specCanonMap, bucketsOf]
  rfl

theorem specCanonMap_cons (t : ℚ) (q : ℚ × ℕ) (rest : List (ℚ × ℕ)) :
    specCanonMap t (q :: rest) =
      ((q :: rest.takeWhile (fun r => decide (r.1 < q.1 * tolerMax t))).map
        (fun r => (r.1,
          bucketCanon
            (q :: rest.takeWhile (fun r => decide (r.1 < q.1 * tolerMax t))))))
      ++ specCanonMap t
          (rest.dropWhile (fun r => decide (r.1 < q.1 * tolerMax t))) := by
  simp only [specCanonMap]
  rw [bucketsOf, List.map_cons, List.flatten_cons]

theorem tmsGo_spec (t : ℚ) (rest : List (ℚ × ℕ)) :
    ∀ (e : List ℚ) (v tot sim : ℚ),
      tmsGo t rest e v tot sim =
        ((e ++ (rest.takeWhile (fun q => decide (q.1 < v * tolerMax t))).map
            Prod.fst).map
          (fun x => (x, roundHalfEven
            ((tot + wSum (rest.takeWhile (fun q => decide (q.1 < v * tolerMax t)))) /
             (sim + wCount (rest.takeWhile (fun q => decide (q.1 < v * tolerMax t))))))))
        ++ specCanonMap t
            (rest.dropWhile (fun q => decide (q.1 < v * tolerMax t))) := by
  induction rest with
  | nil =>
      intro e v tot sim
      simp [tmsGo, specCanonMap_nil, wSum_nil, wCount_nil]
  | cons q rest ih =>
      obtain ⟨plen, n⟩ := q
      intro e v tot sim
      by_cases h : plen < v * tolerMax t
      · rw [tmsGo, if_pos h, ih,
          List.takeWhile_cons_of_pos (by simpa using h),
          List.dropWhile_cons_of_pos (by simpa using h)]
        simp only [List.map_cons, wSum_cons, wCount_cons, add_assoc,
          ← List.append_cons]
      · rw [tmsGo, if_neg h, ih,
          List.takeWhile_cons_of_neg (by simpa using h),
          List.dropWhile_cons_of_neg (by simpa using h),
          specCanonMap_cons, map_pair_fst, bucketCanon_cons]
        simp only [List.takeWhile_nil, wSum_nil, wCount_nil, List.map_nil,
          List.append_nil, add_zero, List.map_cons, List.singleton_append,
          List.nil_append, List.append_assoc]

theorem tidyCanonMap_eq_spec (t : ℚ) (ms : List (ℚ × ℕ)) (h : ms ≠ []) :
    tidyCanonMap t ms = some (specCanonMap t ms) := by
  match ms with
  | [] => exact absurd rfl h
  | (plen, n) :: rest =>
      rw [tidyCanonMap, specCanonMap_cons, map_pair_fst, bucketCanon_cons]
      congr 1
      rw [tmsGo_spec]
      simp only [List.map_cons, List.singleton_append]

end IRRP

namespace IRRP

theorem freqMap_keys (vals : List ℚ) :
    (freqMap vals).map Prod.fst = List.insertionSort (· ≤ ·) vals.dedup := by
  rw [freqMap, List.map_map]
  have hid : (Prod.fst ∘ fun k : ℚ => (k, vals.count k)) = id := rfl
  rw [hid, List.map_id]

theorem freqMap_keys_sorted (vals : List ℚ) :
    List.Pairwise (· < ·) ((freqMap vals).map Prod.fst) := by
  rw [freqMap_keys]
  have hsorted : List.Sorted (· ≤ ·) (List.insertionSort (· ≤ ·) vals.dedup) :=
    List.sorted_insertionSort _ _
  have hnodup : (List.insertionSort (· ≤ ·) vals.dedup).Nodup :=
    (List.perm_insertionSort _ _).nodup_iff.2 (List.nodup_dedup vals)
  exact (List.Pairwise.and hsorted hnodup).imp
    (fun h => lt_of_le_of_ne h.1 h.2)

/-- Claim C4: for each parity, the Tidier's frequency map lists the distinct
observed lengths in strictly ascending order, and (whenever the frequency
map is nonempty, so the bucket loop runs) the canonical assignment it
computes is exactly the greedy bucket partition described by the spec:
buckets are seeded by their first length, a length joins the open bucket
exactly while `plen < seed * (1 + tol)` with the seed never replaced by a
running mean and members never re-bucketed, and every member of a closed
bucket receives `round(weighted_total / weighted_count)`. -/
theorem c4_tidy_buckets (t : ℚ) (records : List (String × List ℚ))
    (base : ℕ) :
    List.Pairwise (· < ·) ((freqMap (collectParity records base)).map Prod.fst) ∧
    (freqMap (collectParity records base) ≠ [] →
      tidyCanonMap t (freqMap (collectParity records base)) =
        some (specCanonMap t (freqMap (collectParity records base)))) :=
  ⟨freqMap_keys_sorted _, tidyCanonMap_eq_spec t _⟩

/-- Witness for C4 on a concrete store: one code `[100, 50, 110]` with
tolerance 15, marks parity. -/
theorem c4_witness :
    freqMap (collectParity [("1", [100, 50, 110])] 0) ≠ [] ∧
    tidyCanonMap 15 (freqMap (collectParity [("1", [100, 50, 110])] 0)) =
      some (specCanonMap 15 (freqMap (collectParity [("1", [100, 50, 110])] 0))) := by
  have hcp : collectParity [("1", [100, 50, 110])] 0 = [100, 110] := by
    norm_num [collectParity, parityVals, idxFrom_pos, idxFrom_neg]
  have hne : freqMap (collectParity [("1", [100, 50, 110])] 0) ≠ [] := by
    rw [hcp, freqMap]
    intro hcontra
    have hlen := congrArg List.length hcontra
    rw [List.length_map, (List.perm_insertionSort _ _).length_eq] at hlen
    rw [show ([(100 : ℚ), 110].dedup) = [100, 110] from by
      rw [List.dedup_cons_of_not_mem (by norm_num)]
      rfl] at hlen
    simp at hlen
  exact ⟨hne, (c4_tidy_buckets 15 [("1", [100, 50, 110])] 0).2 hne⟩

end IRRP

namespace IRRP

/-! ### Claim C9: after tidying, every stored value is a non-negative integer -/

theorem freqMap_mem (vals : List ℚ) (q : ℚ × ℕ) (hq : q ∈ freqMap vals) :
    q.1 ∈ vals ∧ 0 < q.2 := by
  rw [freqMap] at hq
  obtain ⟨k, hk, rfl⟩ := List.mem_map.1 hq
  have hkv : k ∈ vals :=
    List.mem_dedup.1 ((List.perm_insertionSort _ _).mem_iff.1 hk)
  exact ⟨hkv, List.count_pos_iff.2 hkv⟩

theorem mem_freqMap_keys (vals : List ℚ) (x : ℚ) (hx : x ∈ vals) :
    x ∈ (freqMap vals).map Prod.fst := by
  rw [freqMap_keys]
  exact (List.perm_insertionSort _ _).mem_iff.2 (List.mem_dedup.2 hx)

theorem bucketsOf_mem_sub (t : ℚ) :
    ∀ (ms : List (ℚ × ℕ)) (b : List (ℚ × ℕ)), b ∈ bucketsOf t ms →
      b ≠ [] ∧ ∀ q ∈ b, q ∈ ms
  | [] => by
      rw [bucketsOf]
      intro b hb
      exact absurd hb (List.not_mem_nil b)
  | q0 :: rest => by
      rw [bucketsOf]
      intro b hb
      rcases List.mem_cons.1 hb with rfl | hb'
      · refine ⟨by simp, ?_⟩
        intro q hq
        rcases List.mem_cons.1 hq with rfl | hq'
        · exact List.mem_cons_self _ _
        · exact List.mem_cons_of_mem _ ((List.takeWhile_sublist _).subset hq')
      · have hrec := bucketsOf_mem_sub t
          (rest.dropWhile (fun r => decide (r.1 < q0.1 * tolerMax t))) b hb'
        exact ⟨hrec.1, fun q hq => List.mem_cons_of_mem _
          ((List.dropWhile_sublist _).subset (hrec.2 q hq))⟩
termination_by ms => ms.length
decreasing_by
  simp only [List.length_cons]
  exact Nat.lt_succ_of_le (List.Sublist.length_le (List.dropWhile_sublist _))

theorem flatten_bucketsOf (t : ℚ) :
    ∀ (ms : List (ℚ × ℕ)), (bucketsOf t ms).flatten = ms
  | [] => by
      rw [bucketsOf]
      rfl
  | q0 :: rest => by
      rw [bucketsOf, List.flatten_cons,
        flatten_bucketsOf t (rest.dropWhile (fun r => decide (r.1 < q0.1 * tolerMax t))),
        List.cons_append, List.takeWhile_append_dropWhile]
termination_by ms => ms.length
decreasing_by
  simp only [List.length_cons]
  exact Nat.lt_succ_of_le (List.Sublist.length_le (List.dropWhile_sublist _))

theorem specCanonMap_keys (t : ℚ) (ms : List (ℚ × ℕ)) :
    (specCanonMap t ms).map Prod.fst = ms.map Prod.fst := by
  rw [specCanonMap, List.map_flatten, List.map_map]
  have hmaps : ∀ b ∈ bucketsOf t ms,
      (List.map Prod.fst ∘ fun b => b.map (fun q => (q.1, bucketCanon b))) b =
        b.map Prod.fst := by
    intro b _
    simp [List.map_map]
  rw [List.map_congr_left hmaps, ← List.map_flatten, flatten_bucketsOf]

theorem specCanonMap_val_nonneg (t : ℚ) (ms : List (ℚ × ℕ)) (z : ℚ × ℤ)
    (hz : z ∈ specCanonMap t ms) (hms : ∀ q ∈ ms, 0 ≤ q.1 ∧ 0 < q.2) :
    0 ≤ z.2 := by
  rw [specCanonMap] at hz
  obtain ⟨l, hl, hzl⟩ := List.mem_flatten.1 hz
  obtain ⟨b, hb, rfl⟩ := List.mem_map.1 hl
  obtain ⟨r, _hr, rfl⟩ := List.mem_map.1 hzl
  obtain ⟨hbne, hbsub⟩ := bucketsOf_mem_sub t ms b hb
  show (0 : ℤ) ≤ bucketCanon b
  rw [bucketCanon]
  apply roundHalfEven_nonneg
  apply div_nonneg
  · rw [wSum]
    apply List.sum_nonneg
    intro x hx
    obtain ⟨q, hq, rfl⟩ := List.mem_map.1 hx
    have hq' := hms q (hbsub q hq)
    exact mul_nonneg hq'.1 (by positivity)
  · rw [wCount]
    apply le_of_lt
    apply List.sum_pos
    · intro x hx
      obtain ⟨q, hq, rfl⟩ := List.mem_map.1 hx
      exact_mod_cast (hms q (hbsub q hq)).2
    · simp [hbne]

theorem lookupCanon_natCast (t : ℚ) (ms : List (ℚ × ℕ))
    (hms : ∀ q ∈ ms, 0 ≤ q.1 ∧ 0 < q.2) (x : ℚ)
    (hx : x ∈ ms.map Prod.fst) :
    ∃ n : ℕ, lookupCanon (specCanonMap t ms) x = (n : ℚ) := by
  have hx' : x ∈ (specCanonMap t ms).map Prod.fst := by
    rw [specCanonMap_keys]
    exact hx
  obtain ⟨q, hq, hq1⟩ := List.mem_map.1 hx'
  have hfind : ((specCanonMap t ms).find? (fun r => decide (r.1 = x))).isSome :=
    List.find?_isSome.2 ⟨q, hq, by simp [hq1]⟩
  obtain ⟨q', hq'⟩ := Option.isSome_iff_exists.1 hfind
  have hmem : q' ∈ specCanonMap t ms := List.mem_of_find?_eq_some hq'
  have hnn : (0 : ℤ) ≤ q'.2 := specCanonMap_val_nonneg t ms q' hmem hms
  refine ⟨q'.2.toNat, ?_⟩
  simp only [lookupCanon, hq']
  exact_mod_cast (Int.toNat_of_nonneg hnn).symm

theorem getD_mem_of_lt {l : List ℚ} {i : ℕ} (h : i < l.length) :
    l.getD i 0 ∈ l := by
  rw [List.getD_eq_getElem?_getD, List.getElem?_eq_getElem h]
  exact List.getElem_mem h

theorem getD_mem_collectParity (records : List (String × List ℚ)) (base : ℕ)
    (hbase : base ≤ 1) (r : String × List ℚ) (hr : r ∈ records) (i : ℕ)
    (hi : i < r.2.length) (hpar : i % 2 = base % 2) :
    r.2.getD i 0 ∈ collectParity records base := by
  rw [collectParity]
  apply List.mem_flatten_of_mem
    (List.mem_map_of_mem (fun r => parityVals base r.2) hr)
  show r.2.getD i 0 ∈ parityVals base r.2
  rw [parityVals]
  apply List.mem_map_of_mem
  rw [mem_idxFrom]
  omega

theorem mem_collectParity (records : List (String × List ℚ)) (base : ℕ)
    (x : ℚ) (hx : x ∈ collectParity records base) :
    ∃ r ∈ records, x ∈ r.2 := by
  rw [collectParity] at hx
  obtain ⟨l, hl, hxl⟩ := List.mem_flatten.1 hx
  obtain ⟨r, hr, rfl⟩ := List.mem_map.1 hl
  rw [parityVals] at hxl
  obtain ⟨i, hi, rfl⟩ := List.mem_map.1 hxl
  rw [mem_idxFrom] at hi
  exact ⟨r, hr, getD_mem_of_lt hi.2.1⟩

theorem rewriteParity_length (m : List (ℚ × ℤ)) (base : ℕ) (seq : List ℚ) :
    (rewriteParity m base seq).length = seq.length := by
  simp [rewriteParity]

theorem rewriteParity_getD (m : List (ℚ × ℤ)) (base : ℕ) (seq : List ℚ)
    (i : ℕ) (hi : i < seq.length) :
    (rewriteParity m base seq).getD i 0 =
      if i % 2 = base % 2 then lookupCanon m (seq.getD i 0)
      else seq.getD i 0 := by
  simp [rewriteParity, List.getD_eq_getElem?_getD, List.getElem?_map,
    List.getElem?_range hi]

theorem tidyMarkSpace_some (t : ℚ) (records r' : List (String × List ℚ))
    (base : ℕ) (h : tidyMarkSpace t records base = some r') :
    r' = records.map (fun r => (r.1,
      rewriteParity (specCanonMap t (freqMap (collectParity records base)))
        base r.2)) := by
  by_cases hne : freqMap (collectParity records base) = []
  · rw [tidyMarkSpace, hne] at h
    exact absurd h (by simp [tidyCanonMap])
  · rw [tidyMarkSpace, tidyCanonMap_eq_spec t _ hne] at h
    exact (Option.some_injective _ h).symm

end IRRP

namespace IRRP

/-- Claim C9: if every pulse duration in the store is non-negative, then
after a successful run of the Tidier (marks pass then spaces pass, as done
on the save path before writing the file) every stored value is a
non-negative integer: marks are replaced by integer-rounded bucket
canonicals in the first pass and left alone by the second, spaces
symmetrically - even though the Normalizer alone produces values rounded to
two decimal places. -/
theorem c9_tidy_integer_store (t : ℚ)
    (records records' : List (String × List ℚ))
    (hnn : ∀ r ∈ records, ∀ x ∈ r.2, 0 ≤ x)
    (htidy : tidy t records = some records') :
    ∀ r ∈ records', ∀ x ∈ r.2, ∃ n : ℕ, x = (n : ℚ) := by
  rcases h1eq : tidyMarkSpace t records 0 with _ | r1
  · rw [tidy, h1eq] at htidy
    exact absurd htidy (by simp)
  · rw [tidy, h1eq] at htidy
    have htidy2 : tidyMarkSpace t r1 1 = some records' := htidy
    have hr1 := tidyMarkSpace_some t records r1 0 h1eq
    have hr2 := tidyMarkSpace_some t r1 records' 1 htidy2
    have hms0 : ∀ q ∈ freqMap (collectParity records 0), 0 ≤ q.1 ∧ 0 < q.2 := by
      intro q hq
      obtain ⟨hqv, hqc⟩ := freqMap_mem _ q hq
      obtain ⟨r, hr, hxr⟩ := mem_collectParity records 0 q.1 hqv
      exact ⟨hnn r hr q.1 hxr, hqc⟩
    have hval1 : ∀ s ∈ r1, ∀ i, i < s.2.length →
        ((i % 2 = 0 → ∃ n : ℕ, s.2.getD i 0 = (n : ℚ)) ∧ 0 ≤ s.2.getD i 0) := by
      intro s hs i hi
      rw [hr1] at hs
      obtain ⟨u, hu, rfl⟩ := List.mem_map.1 hs
      dsimp only at hi ⊢
      rw [rewriteParity_length] at hi
      rw [rewriteParity_getD _ 0 u.2 i hi]
      have hu0 : 0 ≤ u.2.getD i 0 := hnn u hu _ (getD_mem_of_lt hi)
      by_cases hpar : i % 2 = 0 % 2
      · rw [if_pos hpar]
        have hx : u.2.getD i 0 ∈ collectParity records 0 :=
          getD_mem_collectParity records 0 (by norm_num) u hu i hi (by omega)
        obtain ⟨n, hn⟩ := lookupCanon_natCast t _ hms0 _
          (mem_freqMap_keys _ _ hx)
        refine ⟨fun _ => ⟨n, hn⟩, ?_⟩
        rw [hn]
        positivity
      · rw [if_neg hpar]
        exact ⟨fun hcontra => absurd (by omega : i % 2 = 0 % 2) hpar, hu0⟩
    have hnn1 : ∀ r ∈ r1, ∀ x ∈ r.2, 0 ≤ x := by
      intro r hr x hx
      obtain ⟨i, hlt, hxi⟩ := List.getElem_of_mem hx
      have hgd : r.2.getD i 0 = x := by
        rw [List.getD_eq_getElem?_getD, List.getElem?_eq_getElem hlt]
        exact hxi
      rw [← hgd]
      exact (hval1 r hr i hlt).2
    have hms1 : ∀ q ∈ freqMap (collectParity r1 1), 0 ≤ q.1 ∧ 0 < q.2 := by
      intro q hq
      obtain ⟨hqv, hqc⟩ := freqMap_mem _ q hq
      obtain ⟨r, hr, hxr⟩ := mem_collectParity r1 1 q.1 hqv
      exact ⟨hnn1 r hr q.1 hxr, hqc⟩
    intro r hr x hx
    rw [hr2] at hr
    obtain ⟨s, hs, rfl⟩ := List.mem_map.1 hr
    dsimp only at hx
    obtain ⟨i, hlt, hxi⟩ := List.getElem_of_mem hx
    have hlt' : i < s.2.length := by
      rw [rewriteParity_length] at hlt
      exact hlt
    have hgd : (rewriteParity
        (specCanonMap t (freqMap (collectParity r1 1))) 1 s.2).getD i 0 = x := by
      rw [List.getD_eq_getElem?_getD, List.getElem?_eq_getElem hlt]
      exact hxi
    rw [← hgd, rewriteParity_getD _ 1 s.2 i hlt']
    by_cases hpar : i % 2 = 1 % 2
    · rw [if_pos hpar]
      have hx1 : s.2.getD i 0 ∈ collectParity r1 1 :=
        getD_mem_collectParity r1 1 (by norm_num) s hs i hlt' (by omega)
      exact lookupCanon_natCast t _ hms1 _ (mem_freqMap_keys _ _ hx1)
    · rw [if_neg hpar]
      exact (hval1 s hs i hlt').1 (by omega)

/-- Witness for C9 on a concrete store: tidying `{"1": [100, 50]}` with
tolerance 15 succeeds and yields non-negative integer values. -/
theorem c9_witness :
    tidy 15 [("1", [100, 50])] = some [("1", [100, 50])] ∧
    (∃ n : ℕ, (100 : ℚ) = (n : ℚ)) := by
  have heval : tidy 15 [("1", [100, 50])] = some [("1", [100, 50])] := by
    norm_num [tidy, tidyMarkSpace, collectParity, parityVals, idxFrom_pos,
      idxFrom_neg, freqMap, List.dedup_cons_of_not_mem, List.insertionSort,
      List.orderedInsert, tidyCanonMap, tmsGo, roundHalfEven, lookupCanon,
      rewriteParity, List.range_succ, List.find?]
  refine ⟨heval, ?_⟩
  have hmem : ("1", [(100 : ℚ), 50]) ∈ [("1", [(100 : ℚ), 50])] :=
    List.mem_cons_self _ _
  exact c9_tidy_integer_store 15 [("1", [100, 50])] [("1", [100, 50])]
    (by intro r hr x hx; simp at hr; rw [hr] at hx; simp at hx
        rcases hx with h | h <;> rw [h] <;> norm_num)
    heval ("1", [100, 50]) hmem 100 (by simp)

end IRRP
